import Mathlib

/-!
Shallow embedding of the duplicate-file remover (`find_clones.py`): the
content index (`Storage`), the deletion queue (`DeletionQueue`) and the
orchestrator (`App`), together with theorems checking the specification's
claims against this embedding.

Filesystem interaction is made explicit: file contents are a partial map
from path to content, the set of existing files during deletion is a list
of paths, and the SHA-256 content hash is an abstract function argument
(its collision behavior is irrelevant to the claims checked here).
-/

namespace FindClones

/-- `Duplicate`: one group of paths sharing a content hash. -/
structure Duplicate where
  content_hash : String
  files : List String
  deriving DecidableEq, Repr

/-- `DeletionEntry`: an operator decision for one duplicate group. -/
structure DeletionEntry where
  duplicate : Duplicate
  to_keep : String
  deriving DecidableEq, Repr

/-- `DeletionEntry.to_delete`: the generator yielding the files of the
group other than `to_keep`, in order. -/
def DeletionEntry.to_delete (e : DeletionEntry) : List String :=
  e.duplicate.files.filter (fun f => f ≠ e.to_keep)

/-- `filename.rsplit(".", 1)[-1]`: the part of the name after the last
dot; the whole name when there is no dot. -/
def lastExt (s : String) : String :=
  ⟨(s.data.reverse.takeWhile (fun c => c ≠ '.')).reverse⟩

/-- `str.lower()`, per character. -/
def lowerStr (s : String) : String :=
  ⟨s.data.map Char.toLower⟩

/-- The fixed extension allow-list of `Storage._is_supported`. -/
def supportedExts : List String :=
  ["png", "jpg", "jpeg", "tiff", "bmp", "gif"]

/-- `Storage._is_supported`: the lowercased last-dot suffix is in the
allow-list. -/
def is_supported (filename : String) : Bool :=
  supportedExts.contains (lowerStr (lastExt filename))

/-- The in-memory deletion queue: the `_queue` list plus the `_index`
dict, the latter modelled as a partial map since the source only ever
reads, writes and deletes single keys of it. -/
structure DeletionQueue where
  queue : List DeletionEntry
  index : String → Option DeletionEntry

/-- `DeletionQueue.__init__`: empty list, empty dict. -/
def DeletionQueue.empty : DeletionQueue :=
  ⟨[], fun _ => none⟩

/-- `DeletionQueue.get_by_hash`. -/
def DeletionQueue.get_by_hash (q : DeletionQueue) (content_hash : String) :
    Option DeletionEntry :=
  q.index content_hash

/-- `DeletionQueue.clear_deletion_queue`. -/
def DeletionQueue.clear_deletion_queue (_q : DeletionQueue) : DeletionQueue :=
  DeletionQueue.empty

/-- `DeletionQueue._add_new`: append to the list, set the dict key. -/
def DeletionQueue.add_new (q : DeletionQueue) (e : DeletionEntry) : DeletionQueue :=
  ⟨q.queue ++ [e],
   fun k => if k = e.duplicate.content_hash then some e else q.index k⟩

/-- `DeletionQueue.add`: if an entry for the hash exists, assign its
`to_keep` in place; otherwise `_add_new` a fresh entry. The in-place
mutation of the shared entry object is modelled by rewriting `to_keep`
on the list elements carrying that hash and on the dict value. -/
def DeletionQueue.add (q : DeletionQueue) (dup : Duplicate) (keep : String) :
    DeletionQueue :=
  match q.get_by_hash dup.content_hash with
  | some entry =>
      ⟨q.queue.map (fun e =>
          if e.duplicate.content_hash = dup.content_hash
          then { e with to_keep := keep } else e),
       fun k => if k = dup.content_hash
                then some { entry with to_keep := keep } else q.index k⟩
  | none => q.add_new ⟨dup, keep⟩

/-- `DeletionQueue.remove`: look the hash up; when present, `list.remove`
the entry (first equal element) and delete the dict key. -/
def DeletionQueue.remove (q : DeletionQueue) (dup : Duplicate) : DeletionQueue :=
  match q.get_by_hash dup.content_hash with
  | none => q
  | some entry =>
      ⟨q.queue.erase entry,
       fun k => if k = dup.content_hash then none else q.index k⟩

/-- A sequence of `add` calls applied to the fresh queue. -/
def applyAdds (ops : List (Duplicate × String)) : DeletionQueue :=
  ops.foldl (fun q op => q.add op.1 op.2) DeletionQueue.empty

/-- Consistency of the queue's two structures, maintained by every
public operation: the list holds at most one entry per content hash and
the dict maps each hash to the (first, hence only) list entry carrying
it. -/
def QueueWf (q : DeletionQueue) : Prop :=
  (q.queue.map (fun e => e.duplicate.content_hash)).Nodup ∧
  ∀ h, q.index h = q.queue.find? (fun e => e.duplicate.content_hash = h)

/-- Byte-wise lexicographic comparison on character lists: the order
SQLite's default BINARY collation gives `ORDER BY filename`. -/
def charListLeb : List Char → List Char → Bool
  | [], _ => true
  | _ :: _, [] => false
  | c :: cs, d :: ds =>
    if c < d then true
    else if d < c then false
    else charListLeb cs ds

/-- Lexicographic order on paths, as a decidable relation. -/
def strLe (a b : String) : Prop := charListLeb a.data b.data = true

instance : DecidableRel strLe := fun _ _ => decEq _ _

/-- The content index's record table: `(filename, hash)` rows of the
`hashes` table, in insertion order. -/
abbrev Table := List (String × String)

/-- `os.unlink(db)` guarded by `os.path.exists(db)`: drop the durable
store when present. -/
def unlinkIfExists (db : Option Table) : Option Table :=
  if db.isSome then none else db

/-- `CREATE TABLE IF NOT EXISTS hashes (...)`: initialize an empty table
when none is present, keep an existing one. -/
def createTableIfNotExists (db : Option Table) : Option Table :=
  match db with
  | none => some []
  | some t => some t

/-- `Storage.reset`: unlink the database file when it exists, then create
the (now absent) table. -/
def Storage.reset (db : Option Table) : Option Table :=
  createTableIfNotExists (unlinkIfExists db)

/-- `Storage._hash_file` composed with the filesystem: `fs` maps a path
to its content when the file is readable, `hashFn` is the streamed
SHA-256 digest of that content, abstracted. `none` is the I/O error
`open`/`read` raises on an unreadable path. -/
def hash_file (fs : String → Option String) (hashFn : String → String)
    (filename : String) : Option String :=
  (fs filename).map hashFn

/-- `Storage.store_file`: skip unsupported names; otherwise hash the file
and append the `(filename, hash)` row. `none` is the uncaught I/O error
from hashing, which propagates to the caller. -/
def store_file (fs : String → Option String) (hashFn : String → String)
    (records : Table) (filename : String) : Option Table :=
  if is_supported filename then
    match hash_file fs hashFn filename with
    | none => none
    | some h => some (records ++ [(filename, h)])
  else
    some records

/-- `SELECT filename FROM hashes WHERE hash = ? ORDER BY filename`
(`Storage._find_all_with_hash`). -/
def find_all_with_hash (records : Table) (hash_to_find : String) : List String :=
  List.insertionSort strLe ((records.filter (fun r => r.2 = hash_to_find)).map (fun r => r.1))

/-- Number of rows carrying a given hash (`COUNT(hash)` per group). -/
def hashCount (records : Table) (h : String) : Nat :=
  (records.filter (fun r => r.2 = h)).length

/-- `SELECT hash FROM hashes GROUP BY hash HAVING COUNT(hash) > 1`: the
distinct hashes with more than one row. -/
def duplicate_hashes (records : Table) : List String :=
  (records.map (fun r => r.2)).dedup.filter (fun h => 1 < hashCount records h)

/-- `Storage.find_duplicates`. -/
def find_duplicates (records : Table) : List Duplicate :=
  (duplicate_hashes records).map
    (fun h => { content_hash := h, files := find_all_with_hash records h })

/-- `Storage.remove`: one `DELETE FROM hashes WHERE filename = ?` per
file of the group. -/
def Storage.remove (records : Table) (dup : Duplicate) : Table :=
  dup.files.foldl (fun t fn => t.filter (fun r => r.1 ≠ fn)) records

/-- The walk of `App.analyze_dir`, with `os.walk`'s output supplied as a
path list: each path goes through `store_file`; an error aborts the
sweep, since nothing catches it. Runs on the freshly reset table. -/
def sweepLoop (fs : String → Option String) (hashFn : String → String) :
    List String → Table → Option Table
  | [], records => some records
  | p :: rest, records =>
      match store_file fs hashFn records p with
      | none => none
      | some records' => sweepLoop fs hashFn rest records'

/-- `App.analyze_dir`: reset the storage, clear the queue, then sweep the
supplied paths. `none` is an uncaught exception ending the sweep early. -/
def analyze_dir (fs : String → Option String) (hashFn : String → String)
    (paths : List String) : Option Table :=
  match Storage.reset none with
  | none => none
  | some fresh => sweepLoop fs hashFn paths fresh

/-- The inner loop of `App.do_delete_queued_files` over one entry's
`to_delete` view: unlink each path that exists (deletion failures,
caught and logged in the source, are not modelled as the claims under
check do not exercise them), warn-and-skip the absent ones. The
filesystem is the list of existing paths. -/
def deleteEntryFiles (fs : List String) (e : DeletionEntry) : List String :=
  e.to_delete.foldl (fun fs' name => if name ∈ fs' then fs'.erase name else fs') fs

/-- The outer loop of `App.do_delete_queued_files`, with Python's list
iterator made explicit: `i` is the iterator's position in `_queue`, which
the loop body shrinks via `remove`. `fuel` only bounds the iteration
count; since `i` grows each step and the queue never lengthens, the
initial queue length is enough fuel (`doDeleteLoop_fuel_irrel`). -/
def doDeleteLoop :
    Nat → List String → Table → DeletionQueue → Nat →
      List String × Table × DeletionQueue
  | 0, fs, st, q, _ => (fs, st, q)
  | fuel + 1, fs, st, q, i =>
      if h : i < q.queue.length then
        let entry := q.queue.get ⟨i, h⟩
        doDeleteLoop fuel (deleteEntryFiles fs entry)
          (Storage.remove st entry.duplicate)
          (q.remove entry.duplicate) (i + 1)
      else (fs, st, q)

/-- `App.do_delete_queued_files`: run the iterator loop from position 0. -/
def do_delete_queued_files (fs : List String) (st : Table) (q : DeletionQueue) :
    List String × Table × DeletionQueue :=
  doDeleteLoop q.queue.length fs st q 0

/-- JSON documents, restricted to the shapes the queue file uses. -/
inductive Json where
  | str : String → Json
  | arr : List Json → Json
  | obj : List (String × Json) → Json

/-- Key lookup in a JSON object (`data["key"]`). -/
def jsonField (j : Json) (k : String) : Option Json :=
  match j with
  | .obj fields => (fields.find? (fun f => f.1 = k)).map (fun f => f.2)
  | _ => none

/-- A JSON value read as a string. -/
def jsonAsStr : Json → Option String
  | .str s => some s
  | _ => none

/-- A JSON value read as a list of strings. -/
def jsonAsStrList : Json → Option (List String)
  | .arr items => strItems items
  | _ => none
where
  strItems : List Json → Option (List String)
    | [] => some []
    | j :: rest =>
        match jsonAsStr j, strItems rest with
        | some s, some ss => some (s :: ss)
        | _, _ => none

/-- `Duplicate.to_dict` (dataclasses_json). -/
def Duplicate.to_dict (d : Duplicate) : Json :=
  .obj [("content_hash", .str d.content_hash),
        ("files", .arr (d.files.map .str))]

/-- `Duplicate.from_dict` (dataclasses_json): field lookup by key;
missing or ill-typed fields raise, extra keys are ignored. -/
def Duplicate.from_dict (j : Json) : Option Duplicate :=
  match (jsonField j "content_hash").bind jsonAsStr,
        (jsonField j "files").bind jsonAsStrList with
  | some h, some fs => some { content_hash := h, files := fs }
  | _, _ => none

/-- `DeletionEntry.to_dict`. -/
def DeletionEntry.to_dict (e : DeletionEntry) : Json :=
  .obj [("duplicate", e.duplicate.to_dict),
        ("to_keep", .str e.to_keep)]

/-- `DeletionEntry.from_dict`. -/
def DeletionEntry.from_dict (j : Json) : Option DeletionEntry :=
  match (jsonField j "duplicate").bind Duplicate.from_dict,
        (jsonField j "to_keep").bind jsonAsStr with
  | some d, some k => some { duplicate := d, to_keep := k }
  | _, _ => none

/-- `DeletionQueue.persist`: the JSON array of the entries' dicts, in
queue order, written over the session's queue file. -/
def DeletionQueue.persist (q : DeletionQueue) : Json :=
  .arr (q.queue.map DeletionEntry.to_dict)

/-- The `for entry in data: ret._add_new(from_dict(entry))` loop of
`DeletionQueue.load`, split into parsing each element... -/
def parseEntries : List Json → Option (List DeletionEntry)
  | [] => some []
  | j :: rest =>
      match DeletionEntry.from_dict j, parseEntries rest with
      | some e, some es => some (e :: es)
      | _, _ => none

/-- What `DeletionQueue.load` finds at the session's queue location,
through `open` and `json.load`: no file at all (`open` raises
`FileNotFoundError`), text that is not valid JSON (`json.load` raises a
parse error), or a parsed JSON document. -/
inductive QueueFile where
  | missing : QueueFile
  | malformed : QueueFile
  | doc : Json → QueueFile

/-- Python iteration over a parsed JSON document, as the source's
`for entry in data` performs it: a list yields its elements, a dict its
keys, a string its one-character substrings. A document with nothing to
iterate yields the empty sequence, so the loop body never runs and
`load` accepts it. -/
def jsonIter : Json → List Json
  | .arr items => items
  | .obj fields => fields.map (fun f => Json.str f.1)
  | .str s => s.data.map (fun c => Json.str ⟨[c]⟩)

/-- `DeletionQueue.load`: fail when the file is missing or its text does
not parse; otherwise run `for entry in data`, `from_dict`ing each
iterated value (which raises on values that are not entry objects) and
`_add_new`ing it into a fresh queue. -/
def DeletionQueue.load (content : QueueFile) : Option DeletionQueue :=
  match content with
  | .missing => none
  | .malformed => none
  | .doc j =>
      (parseEntries (jsonIter j)).map
        (fun es => es.foldl DeletionQueue.add_new DeletionQueue.empty)

/-! ## Order lemmas for the path sort -/

theorem charListLeb_total (l1 l2 : List Char) : charListLeb l1 l2 || charListLeb l2 l1 := by
  induction l1 generalizing l2 with
  | nil => simp [charListLeb]
  | cons c cs ih =>
    cases l2 with
    | nil => simp [charListLeb]
    | cons d ds =>
      simp only [charListLeb]
      rcases lt_trichotomy c d with h | h | h
      · simp [h, not_lt_of_lt h]
      · subst h; simp [lt_irrefl, ih ds]
      · simp [h, not_lt_of_lt h]

theorem charListLeb_trans (l1 l2 l3 : List Char) (h1 : charListLeb l1 l2)
    (h2 : charListLeb l2 l3) : charListLeb l1 l3 := by
  induction l1 generalizing l2 l3 with
  | nil => simp [charListLeb]
  | cons c cs ih =>
    cases l2 with
    | nil => simp [charListLeb] at h1
    | cons d ds =>
      cases l3 with
      | nil => simp [charListLeb] at h2
      | cons e es =>
        simp only [charListLeb] at h1 h2 ⊢
        rcases lt_trichotomy c d with hcd | hcd | hcd
        · rcases lt_trichotomy d e with hde | hde | hde
          · simp [lt_trans hcd hde]
          · subst hde; simp [hcd]
          · simp [hde, not_lt_of_lt hde] at h2
        · subst hcd
          simp only [lt_irrefl, if_false] at h1
          rcases lt_trichotomy c e with hce | hce | hce
          · simp [hce]
          · subst hce
            simp only [lt_irrefl, if_false] at h2 ⊢
            exact ih ds es h1 h2
          · simp [hce, not_lt_of_lt hce] at h2
        · simp [hcd, not_lt_of_lt hcd] at h1

theorem charListLeb_antisymm (l1 l2 : List Char) (h1 : charListLeb l1 l2)
    (h2 : charListLeb l2 l1) : l1 = l2 := by
  induction l1 generalizing l2 with
  | nil =>
    cases l2 with
    | nil => rfl
    | cons d ds => simp [charListLeb] at h2
  | cons c cs ih =>
    cases l2 with
    | nil => simp [charListLeb] at h1
    | cons d ds =>
      simp only [charListLeb] at h1 h2
      rcases lt_trichotomy c d with h | h | h
      · simp [h, not_lt_of_lt h] at h2
      · subst h; simp only [lt_irrefl, if_false] at h1 h2
        exact congrArg _ (ih ds h1 h2)
      · simp [h, not_lt_of_lt h] at h1

theorem strLe_total : ∀ a b : String, strLe a b ∨ strLe b a := by
  intro a b
  rcases Bool.or_eq_true_iff.mp (charListLeb_total a.data b.data) with h | h
  · exact Or.inl h
  · exact Or.inr h

theorem strLe_trans : ∀ a b c : String, strLe a b → strLe b c → strLe a c :=
  fun a b c h1 h2 => charListLeb_trans a.data b.data c.data h1 h2

theorem strLe_antisymm : ∀ a b : String, strLe a b → strLe b a → a = b := by
  intro a b h1 h2
  cases a; cases b
  exact congrArg String.mk (charListLeb_antisymm _ _ h1 h2)

/-! ## C8: the `to_delete` view -/

/-- C8: `to_delete` yields exactly the elements of `duplicate.files`
other than `to_keep`, in the same relative order (it is a sublist of
`files`, its members are precisely the members of `files` different
from `to_keep`, and each such path keeps its multiplicity). -/
theorem to_delete_view_spec (e : DeletionEntry) :
    e.to_delete.Sublist e.duplicate.files ∧
    (∀ p, p ∈ e.to_delete ↔ (p ∈ e.duplicate.files ∧ p ≠ e.to_keep)) ∧
    (∀ p, p ≠ e.to_keep → e.to_delete.count p = e.duplicate.files.count p) := by
  refine ⟨List.filter_sublist _, ?_, ?_⟩
  · intro p
    simp [DeletionEntry.to_delete, List.mem_filter]
  · intro p hp
    simp [DeletionEntry.to_delete, List.count_filter, hp]

/-- Witness for C8 on a two-file group keeping `"a"`. -/
theorem to_delete_view_witness :
    (DeletionEntry.mk ⟨"h", ["a", "b"]⟩ "a").to_delete.count "b"
      = (["a", "b"] : List String).count "b" :=
  (to_delete_view_spec ⟨⟨"h", ["a", "b"]⟩, "a"⟩).2.2 "b" (by decide)

/-! ## C9: reset is safe with and without an existing store -/

/-- C9: `Storage.reset` succeeds from any prior durable state — an
existing table or a never-initialized session alike — and leaves an
initialized empty record store. -/
theorem reset_safe_spec :
    (∀ prior : Table, Storage.reset (some prior) = some []) ∧
    Storage.reset none = some [] := by
  constructor
  · intro prior; rfl
  · rfl

/-! ## C10: names without a dot -/

theorem takeWhile_of_all {α : Type} (p : α → Bool) :
    ∀ l : List α, (∀ c ∈ l, p c = true) → l.takeWhile p = l := by
  intro l hl
  induction l with
  | nil => rfl
  | cons c cs ih =>
    rw [List.takeWhile_cons, hl c (List.mem_cons_self c cs)]
    exact congrArg _ (ih (fun d hd => hl d (List.mem_cons_of_mem c hd)))

theorem lastExt_of_no_dot (s : String) (h : '.' ∉ s.data) : lastExt s = s := by
  have hall : ∀ c ∈ s.data.reverse, (decide (c ≠ '.')) = true := by
    intro c hc
    simp only [decide_eq_true_eq]
    intro heq
    exact h (heq ▸ List.mem_reverse.mp hc)
  unfold lastExt
  rw [takeWhile_of_all _ _ hall, List.reverse_reverse]

/-- C10: for a name with no dot, classification tests the whole
lowercased name against the allow-list, so a dotless name that spells an
allowed extension is supported and gets stored. -/
theorem no_dot_extension_spec (s : String) (hnd : '.' ∉ s.data) :
    is_supported s = supportedExts.contains (lowerStr s) ∧
    (∀ (fs : String → Option String) (hashFn : String → String) (t : Table) (c : String),
      supportedExts.contains (lowerStr s) = true → fs s = some c →
      store_file fs hashFn t s = some (t ++ [(s, hashFn c)])) := by
  have hext : lastExt s = s := lastExt_of_no_dot s hnd
  constructor
  · unfold is_supported
    rw [hext]
  · intro fs hashFn t c hsup hread
    have hs : is_supported s = true := by
      unfold is_supported
      rw [hext]
      exact hsup
    unfold store_file
    rw [hs]
    simp [hash_file, hread]

/-- Witness for C10 at the dotless name `"PNG"`. -/
theorem no_dot_extension_witness :
    is_supported "PNG" = supportedExts.contains (lowerStr "PNG") ∧
    store_file (fun p => if p = "PNG" then some "bytes" else none) (fun _ => "h") [] "PNG" =
      some [("PNG", "h")] := by
  have h := no_dot_extension_spec "PNG" (by decide)
  refine ⟨h.1, ?_⟩
  have h2 := h.2 (fun p => if p = "PNG" then some "bytes" else none) (fun _ => "h") [] "bytes"
    (by decide) (by rfl)
  simpa using h2

/-! ## C7: unsupported extensions are never stored -/

theorem mem_find_all_with_hash (records : Table) (h p : String) :
    p ∈ find_all_with_hash records h ↔ (p, h) ∈ records := by
  unfold find_all_with_hash
  rw [List.Perm.mem_iff (List.perm_insertionSort strLe _)]
  constructor
  · intro hp
    rcases List.mem_map.mp hp with ⟨r, hr, hrp⟩
    obtain ⟨hrmem, hrh⟩ := List.mem_filter.mp hr
    have hh : r.2 = h := by simpa using hrh
    have : r = (p, h) := by
      cases r
      simp only [Prod.mk.injEq]
      exact ⟨hrp, hh⟩
    exact this ▸ hrmem
  · intro hmem
    exact List.mem_map.mpr ⟨(p, h), List.mem_filter.mpr ⟨hmem, by simp⟩, rfl⟩

/-- C7: storing a path with an extension outside the allow-list is a
no-op, and such a path never shows up in an index record or duplicate
group it was not already in. -/
theorem unsupported_store_noop_spec (fs : String → Option String) (hashFn : String → String)
    (records : Table) (filename : String) (h : is_supported filename = false) :
    store_file fs hashFn records filename = some records ∧
    (filename ∉ records.map (fun r => r.1) →
      ∀ d ∈ find_duplicates records, filename ∉ d.files) := by
  constructor
  · unfold store_file
    rw [h]
    simp
  · intro hnot d hd hmem
    rcases List.mem_map.mp hd with ⟨hh, _, rfl⟩
    simp only at hmem
    have : (filename, hh) ∈ records := (mem_find_all_with_hash records hh filename).mp hmem
    exact hnot (List.mem_map.mpr ⟨(filename, hh), this, rfl⟩)

/-- Witness for C7 at `"c.txt"` over a one-record index. -/
theorem unsupported_store_noop_witness :
    store_file (fun _ => none) (fun _ => "x") [("a.jpg", "h")] "c.txt"
      = some [("a.jpg", "h")] :=
  (unsupported_store_noop_spec (fun _ => none) (fun _ => "x") [("a.jpg", "h")] "c.txt"
    (by decide)).1

/-! ## C5: load surfaces missing/malformed queue files -/

theorem foldl_add_new_queue (es : List DeletionEntry) (q : DeletionQueue) :
    (es.foldl DeletionQueue.add_new q).queue = q.queue ++ es := by
  induction es generalizing q with
  | nil => simp
  | cons e rest ih =>
    show (rest.foldl DeletionQueue.add_new (q.add_new e)).queue = _
    rw [ih (q.add_new e)]
    show (q.queue ++ [e]) ++ rest = q.queue ++ (e :: rest)
    simp

/-- C5: for a session whose queue file is missing (`open` raises) or
contains text that is not valid JSON (`json.load` raises), `load` fails
with the I/O or parse error surfaced to the caller — no queue, in
particular no empty one, is returned. -/
theorem load_failure_spec (content : QueueFile)
    (h : content = QueueFile.missing ∨ content = QueueFile.malformed) :
    DeletionQueue.load content = none ∧ ∀ q, DeletionQueue.load content ≠ some q := by
  rcases h with rfl | rfl <;> exact ⟨rfl, fun q hq => Option.noConfusion hq⟩

/-- Witness for C5 at the missing-file case. -/
theorem load_failure_witness : DeletionQueue.load QueueFile.missing = none :=
  (load_failure_spec QueueFile.missing (Or.inl rfl)).1

/-! ## C4: persist/load round trip -/

theorem dup_from_to_dict (d : Duplicate) : Duplicate.from_dict d.to_dict = some d := by
  cases d with
  | mk h files =>
    have hfiles : jsonAsStrList (Json.arr (files.map Json.str)) = some files := by
      show jsonAsStrList.strItems (files.map Json.str) = some files
      induction files with
      | nil => rfl
      | cons f rest ih =>
        show (match jsonAsStr (Json.str f), jsonAsStrList.strItems (rest.map Json.str) with
              | some s, some ss => some (s :: ss)
              | _, _ => none) = some (f :: rest)
        rw [ih]
        rfl
    have h3 : (jsonField (Duplicate.to_dict ⟨h, files⟩) "content_hash").bind jsonAsStr
        = some h := rfl
    have h4 : (jsonField (Duplicate.to_dict ⟨h, files⟩) "files").bind jsonAsStrList
        = some files := by
      show jsonAsStrList (Json.arr (files.map Json.str)) = some files
      exact hfiles
    unfold Duplicate.from_dict
    rw [h3, h4]

theorem entry_from_to_dict (e : DeletionEntry) : DeletionEntry.from_dict e.to_dict = some e := by
  cases e with
  | mk d k =>
    have h1 : (jsonField (DeletionEntry.to_dict ⟨d, k⟩) "duplicate").bind Duplicate.from_dict
        = some d := by
      show Duplicate.from_dict d.to_dict = some d
      exact dup_from_to_dict d
    have h2 : (jsonField (DeletionEntry.to_dict ⟨d, k⟩) "to_keep").bind jsonAsStr
        = some k := rfl
    unfold DeletionEntry.from_dict
    rw [h1, h2]

theorem parseEntries_to_dict (es : List DeletionEntry) :
    parseEntries (es.map DeletionEntry.to_dict) = some es := by
  induction es with
  | nil => rfl
  | cons e rest ih =>
    show (match DeletionEntry.from_dict e.to_dict, parseEntries (rest.map DeletionEntry.to_dict) with
          | some e, some es => some (e :: es)
          | _, _ => none) = some (e :: rest)
    rw [entry_from_to_dict e, ih]

/-- C4: `persist` followed by `load` of the produced document rebuilds a
queue with the same entry sequence — same groups, same `to_keep`, same
insertion order. -/
theorem persist_load_round_trip (q : DeletionQueue) :
    ∃ q', DeletionQueue.load (QueueFile.doc q.persist) = some q' ∧ q'.queue = q.queue := by
  refine ⟨q.queue.foldl DeletionQueue.add_new DeletionQueue.empty, ?_, ?_⟩
  · show (parseEntries (q.queue.map DeletionEntry.to_dict)).map
        (fun es => es.foldl DeletionQueue.add_new DeletionQueue.empty) = _
    rw [parseEntries_to_dict]
    rfl
  · rw [foldl_add_new_queue]
    rfl

/-! ## C2: an unreadable file aborts the sweep -/

theorem store_file_mono (fs : String → Option String) (hashFn : String → String)
    (acc : Table) (p : String) (acc2 : Table)
    (h : store_file fs hashFn acc p = some acc2) : ∀ r ∈ acc, r ∈ acc2 := by
  unfold store_file at h
  cases hsup : is_supported p with
  | false =>
    rw [hsup] at h
    simp only [Bool.false_eq_true, if_false, Option.some.injEq] at h
    intro r hr
    exact h ▸ hr
  | true =>
    rw [hsup] at h
    simp only [if_true] at h
    cases hh : hash_file fs hashFn p with
    | none => rw [hh] at h; cases h
    | some hv =>
      rw [hh] at h
      simp only [Option.some.injEq] at h
      intro r hr
      exact h ▸ List.mem_append_left _ hr

theorem sweepLoop_none_iff (fs : String → Option String) (hashFn : String → String)
    (paths : List String) (acc : Table) :
    sweepLoop fs hashFn paths acc = none ↔
      ∃ p ∈ paths, is_supported p = true ∧ fs p = none := by
  induction paths generalizing acc with
  | nil => simp [sweepLoop]
  | cons p rest ih =>
    cases hsup : is_supported p with
    | false =>
      have hsf : store_file fs hashFn acc p = some acc := by
        unfold store_file
        rw [hsup]
        simp
      simp [sweepLoop, hsf, ih, hsup]
    | true =>
      cases hread : fs p with
      | none =>
        have hsf : store_file fs hashFn acc p = none := by
          unfold store_file
          rw [hsup]
          simp [hash_file, hread]
        simp [sweepLoop, hsf, hsup, hread]
      | some c =>
        have hsf : store_file fs hashFn acc p = some (acc ++ [(p, hashFn c)]) := by
          unfold store_file
          rw [hsup]
          simp [hash_file, hread]
        simp [sweepLoop, hsf, ih, hsup, hread]

theorem sweepLoop_mono (fs : String → Option String) (hashFn : String → String)
    (paths : List String) :
    ∀ (acc t : Table), sweepLoop fs hashFn paths acc = some t → ∀ r ∈ acc, r ∈ t := by
  induction paths with
  | nil =>
    intro acc t hs r hr
    simp only [sweepLoop, Option.some.injEq] at hs
    exact hs ▸ hr
  | cons p rest ih =>
    intro acc t hs r hr
    unfold sweepLoop at hs
    cases hsf : store_file fs hashFn acc p with
    | none => rw [hsf] at hs; cases hs
    | some acc' =>
      rw [hsf] at hs
      exact ih acc' t hs r (store_file_mono fs hashFn acc p acc' hsf r hr)

theorem sweepLoop_some_mem (fs : String → Option String) (hashFn : String → String)
    (paths : List String) :
    ∀ (acc t : Table), sweepLoop fs hashFn paths acc = some t →
      ∀ p ∈ paths, is_supported p = true → ∃ c, fs p = some c ∧ (p, hashFn c) ∈ t := by
  induction paths with
  | nil =>
    intro acc t _ p hp
    cases hp
  | cons p0 rest ih =>
    intro acc t hs p hp hsup
    unfold sweepLoop at hs
    cases hsf : store_file fs hashFn acc p0 with
    | none => rw [hsf] at hs; cases hs
    | some acc' =>
      rw [hsf] at hs
      rcases List.mem_cons.mp hp with rfl | hmem
      · cases hread : fs p with
        | none =>
          have : store_file fs hashFn acc p = none := by
            unfold store_file
            rw [hsup]
            simp [hash_file, hread]
          rw [this] at hsf
          cases hsf
        | some c =>
          have hacc' : acc' = acc ++ [(p, hashFn c)] := by
            have : store_file fs hashFn acc p = some (acc ++ [(p, hashFn c)]) := by
              unfold store_file
              rw [hsup]
              simp [hash_file, hread]
            rw [this] at hsf
            exact (Option.some.inj hsf).symm
          refine ⟨c, rfl, ?_⟩
          exact sweepLoop_mono fs hashFn rest acc' t hs (p, hashFn c)
            (hacc' ▸ List.mem_append_right _ (List.mem_singleton.mpr rfl))
      · exact ih acc' t hs p hmem hsup

/-- C2, counterexample: with `a.jpg` unreadable and `b.jpg` readable,
`analyze_dir` raises instead of completing — `b.jpg` is never indexed,
refuting "the read failure is caught and the sweep continues". -/
theorem analyze_unreadable_cex :
    analyze_dir (fun p => if p = "b.jpg" then some "x" else none) (fun _ => "h")
      ["a.jpg", "b.jpg"] = none := rfl

/-- C2 as amended: nothing catches a read failure during hashing, so
`analyze_dir` aborts exactly when some swept path is supported but
unreadable; when it does complete, every supported swept path was read
and its record is in the index. -/
theorem analyze_unreadable_abort_spec (fs : String → Option String) (hashFn : String → String)
    (paths : List String) :
    (analyze_dir fs hashFn paths = none ↔
      ∃ p ∈ paths, is_supported p = true ∧ fs p = none) ∧
    (∀ t, analyze_dir fs hashFn paths = some t →
      ∀ p ∈ paths, is_supported p = true → ∃ c, fs p = some c ∧ (p, hashFn c) ∈ t) := by
  have hdef : analyze_dir fs hashFn paths = sweepLoop fs hashFn paths [] := rfl
  constructor
  · rw [hdef]
    exact sweepLoop_none_iff fs hashFn paths []
  · intro t ht
    rw [hdef] at ht
    exact sweepLoop_some_mem fs hashFn paths [] t ht

/-- Witness for the amended C2 on a readable one-file tree. -/
theorem analyze_unreadable_abort_witness : ("a.jpg", "h") ∈ [("a.jpg", "h")] := by
  obtain ⟨c, _, hm⟩ := (analyze_unreadable_abort_spec (fun _ => some "x") (fun _ => "h")
    ["a.jpg"]).2 [("a.jpg", "h")] (by rfl) "a.jpg" (by simp) (by rfl)
  exact hm

/-! ## C1: deletion execution skips entries -/

theorem remove_queue_length_le (q : DeletionQueue) (dup : Duplicate) :
    (q.remove dup).queue.length ≤ q.queue.length := by
  unfold DeletionQueue.remove
  cases q.get_by_hash dup.content_hash with
  | none => exact le_refl _
  | some entry => exact (q.queue.erase_sublist entry).length_le

/-- The fuel passed to `doDeleteLoop` only bounds the step count: any
fuel at least `queue.length - i` computes the loop's true fixpoint, so
`do_delete_queued_files`'s choice of the initial length is enough. -/
theorem doDeleteLoop_fuel_irrel (fuel : Nat) :
    ∀ (fs : List String) (st : Table) (q : DeletionQueue) (i : Nat),
      q.queue.length ≤ fuel + i →
      doDeleteLoop (fuel + 1) fs st q i = doDeleteLoop fuel fs st q i := by
  induction fuel with
  | zero =>
    intro fs st q i hle
    show (if h : i < q.queue.length then _ else (fs, st, q)) = (fs, st, q)
    rw [dif_neg (by omega)]
  | succ n ih =>
    intro fs st q i hle
    show (if h : i < q.queue.length then _ else (fs, st, q))
        = (if h : i < q.queue.length then _ else (fs, st, q))
    by_cases h : i < q.queue.length
    · rw [dif_pos h, dif_pos h]
      exact ih _ _ _ _
        (by have := remove_queue_length_le q ((q.queue.get ⟨i, h⟩).duplicate); omega)
    · rw [dif_neg h, dif_neg h]

/-- C1 fails on the code: `do_delete_queued_files` removes entries from
`_queue` while iterating it, so with two queued groups the iterator
skips the second one — its file `d.jpg` stays on disk, its entry stays in
the queue, and its rows stay in the index. -/
theorem delete_queued_skips_entry_cex :
    (do_delete_queued_files ["a.jpg", "b.jpg", "c.jpg", "d.jpg"]
        [("a.jpg", "h1"), ("b.jpg", "h1"), ("c.jpg", "h2"), ("d.jpg", "h2")]
        ((DeletionQueue.empty.add ⟨"h1", ["a.jpg", "b.jpg"]⟩ "a.jpg").add
          ⟨"h2", ["c.jpg", "d.jpg"]⟩ "c.jpg")).1 = ["a.jpg", "c.jpg", "d.jpg"] ∧
    (do_delete_queued_files ["a.jpg", "b.jpg", "c.jpg", "d.jpg"]
        [("a.jpg", "h1"), ("b.jpg", "h1"), ("c.jpg", "h2"), ("d.jpg", "h2")]
        ((DeletionQueue.empty.add ⟨"h1", ["a.jpg", "b.jpg"]⟩ "a.jpg").add
          ⟨"h2", ["c.jpg", "d.jpg"]⟩ "c.jpg")).2.2.queue =
      [⟨⟨"h2", ["c.jpg", "d.jpg"]⟩, "c.jpg"⟩] ∧
    (do_delete_queued_files ["a.jpg", "b.jpg", "c.jpg", "d.jpg"]
        [("a.jpg", "h1"), ("b.jpg", "h1"), ("c.jpg", "h2"), ("d.jpg", "h2")]
        ((DeletionQueue.empty.add ⟨"h1", ["a.jpg", "b.jpg"]⟩ "a.jpg").add
          ⟨"h2", ["c.jpg", "d.jpg"]⟩ "c.jpg")).2.1 =
      [("c.jpg", "h2"), ("d.jpg", "h2")] := by
  refine ⟨?_, ?_, ?_⟩ <;> rfl

/-! ## C6: the duplicate-group query -/

theorem find_all_with_hash_length (records : Table) (h : String) :
    (find_all_with_hash records h).length = hashCount records h := by
  unfold find_all_with_hash hashCount
  rw [(List.perm_insertionSort strLe _).length_eq]
  exact List.length_map _ _

theorem mem_duplicate_hashes (records : Table) (h : String) :
    h ∈ duplicate_hashes records ↔ 2 ≤ hashCount records h := by
  unfold duplicate_hashes
  rw [List.mem_filter]
  constructor
  · rintro ⟨_, hc⟩
    have := of_decide_eq_true hc
    omega
  · intro h2
    refine ⟨?_, decide_eq_true (by omega)⟩
    rw [List.mem_dedup]
    have hpos : 0 < (records.filter (fun r => r.2 = h)).length := by
      unfold hashCount at h2
      omega
    rcases List.exists_mem_of_length_pos hpos with ⟨r, hr⟩
    obtain ⟨hrmem, hrh⟩ := List.mem_filter.mp hr
    exact List.mem_map.mpr ⟨r, hrmem, by simpa using hrh⟩

/-- C6: `find_duplicates` produces exactly the hashes with at least two
records; each group's `files` is sorted and holds precisely the paths
recorded under that hash, never fewer than two; and permuting the record
set permutes the result without changing any group. -/
theorem find_duplicates_spec (records : Table) :
    (∀ h, (∃ d ∈ find_duplicates records, d.content_hash = h) ↔ 2 ≤ hashCount records h) ∧
    (∀ d ∈ find_duplicates records,
      List.Pairwise strLe d.files ∧
      (∀ p, p ∈ d.files ↔ (p, d.content_hash) ∈ records) ∧
      2 ≤ d.files.length) ∧
    (∀ records', List.Perm records records' →
      List.Perm (find_duplicates records) (find_duplicates records')) := by
  refine ⟨?_, ?_, ?_⟩
  · intro h
    constructor
    · rintro ⟨d, hd, hdh⟩
      rcases List.mem_map.mp hd with ⟨h0, hh0, rfl⟩
      have heq : h0 = h := hdh
      exact heq ▸ (mem_duplicate_hashes records h0).mp hh0
    · intro h2
      exact ⟨⟨h, find_all_with_hash records h⟩,
        List.mem_map.mpr ⟨h, (mem_duplicate_hashes records h).mpr h2, rfl⟩, rfl⟩
  · intro d hd
    rcases List.mem_map.mp hd with ⟨h0, hh0, rfl⟩
    refine ⟨?_, ?_, ?_⟩
    · show List.Pairwise strLe (find_all_with_hash records h0)
      exact @List.sorted_insertionSort String strLe _ ⟨strLe_total⟩ ⟨strLe_trans⟩ _
    · intro p
      exact mem_find_all_with_hash records h0 p
    · show 2 ≤ (find_all_with_hash records h0).length
      rw [find_all_with_hash_length]
      exact (mem_duplicate_hashes records h0).mp hh0
  · intro records' hperm
    have hcount : ∀ h, hashCount records h = hashCount records' h := fun h =>
      (hperm.filter _).length_eq
    have hfiles : ∀ h, find_all_with_hash records h = find_all_with_hash records' h := by
      intro h
      refine @List.eq_of_perm_of_sorted String strLe ⟨fun a b => strLe_antisymm a b⟩ _ _
        ?_ ?_ ?_
      · exact ((List.perm_insertionSort strLe _).trans
          ((hperm.filter _).map _)).trans (List.perm_insertionSort strLe _).symm
      · exact @List.sorted_insertionSort String strLe _ ⟨strLe_total⟩ ⟨strLe_trans⟩ _
      · exact @List.sorted_insertionSort String strLe _ ⟨strLe_total⟩ ⟨strLe_trans⟩ _
    have hdup : List.Perm (duplicate_hashes records) (duplicate_hashes records') := by
      unfold duplicate_hashes
      have hpred : (fun h => decide (1 < hashCount records h))
          = (fun h => decide (1 < hashCount records' h)) :=
        funext fun h => by rw [hcount h]
      rw [hpred]
      exact ((hperm.map _).dedup).filter _
    unfold find_duplicates
    have hfun : (fun h => ({ content_hash := h, files := find_all_with_hash records h } :
          Duplicate))
        = (fun h => { content_hash := h, files := find_all_with_hash records' h }) :=
      funext fun h => by rw [hfiles h]
    rw [hfun]
    exact hdup.map _

/-- Witness for C6 over a two-record index with one shared hash. -/
theorem find_duplicates_spec_witness :
    List.Pairwise strLe ["a.jpg", "b.jpg"] ∧
    2 ≤ (["a.jpg", "b.jpg"] : List String).length := by
  have h := (find_duplicates_spec [("b.jpg", "h"), ("a.jpg", "h")]).2.1
    ⟨"h", ["a.jpg", "b.jpg"]⟩ (by decide)
  exact ⟨h.1, h.2.2⟩

/-! ## C3: upsert semantics of `add` -/

theorem find?_append_or {α : Type} (p : α → Bool) (l1 l2 : List α) :
    (l1 ++ l2).find? p =
      match l1.find? p with
      | some a => some a
      | none => l2.find? p := by
  induction l1 with
  | nil => rfl
  | cons a l ih =>
    cases hpa : p a with
    | true => simp [List.find?_cons, hpa]
    | false => simp [List.find?_cons, hpa, ih]

theorem upd_hash_preserved (h0 keep : String) (e : DeletionEntry) :
    ((if e.duplicate.content_hash = h0 then { e with to_keep := keep } else e) :
      DeletionEntry).duplicate = e.duplicate := by
  split <;> rfl

theorem map_hash_upd (l : List DeletionEntry) (h0 keep : String) :
    (l.map (fun e =>
        if e.duplicate.content_hash = h0 then { e with to_keep := keep } else e)).map
      (fun e => e.duplicate.content_hash) = l.map (fun e => e.duplicate.content_hash) := by
  rw [List.map_map]
  apply List.map_congr_left
  intro e _
  show ((if e.duplicate.content_hash = h0 then { e with to_keep := keep } else e) :
      DeletionEntry).duplicate.content_hash = e.duplicate.content_hash
  rw [upd_hash_preserved]

theorem find?_map_upd (h0 keep h : String) (l : List DeletionEntry) :
    (l.map (fun e =>
        if e.duplicate.content_hash = h0 then { e with to_keep := keep } else e)).find?
        (fun e => e.duplicate.content_hash = h)
      = (l.find? (fun e => e.duplicate.content_hash = h)).map
          (fun e =>
            if e.duplicate.content_hash = h0 then { e with to_keep := keep } else e) := by
  induction l with
  | nil => rfl
  | cons e l ih =>
    simp only [List.map_cons, List.find?_cons]
    rw [show ((if e.duplicate.content_hash = h0 then { e with to_keep := keep } else e) :
        DeletionEntry).duplicate = e.duplicate from upd_hash_preserved h0 keep e]
    by_cases hp : e.duplicate.content_hash = h
    · simp [hp]
    · simp [hp, ih]

theorem wf_empty : QueueWf DeletionQueue.empty :=
  ⟨List.nodup_nil, fun _ => rfl⟩

theorem wf_add (q : DeletionQueue) (dup : Duplicate) (keep : String) (hq : QueueWf q) :
    QueueWf (q.add dup keep) := by
  obtain ⟨hnd, hidx⟩ := hq
  cases hp : q.get_by_hash dup.content_hash with
  | some entry =>
    have hadd : q.add dup keep = ⟨q.queue.map (fun e =>
        if e.duplicate.content_hash = dup.content_hash then { e with to_keep := keep } else e),
      fun k => if k = dup.content_hash then some { entry with to_keep := keep }
               else q.index k⟩ := by
      unfold DeletionQueue.add
      rw [hp]
    rw [hadd]
    constructor
    · show ((q.queue.map _).map _).Nodup
      rw [map_hash_upd]
      exact hnd
    · intro h
      show (if h = dup.content_hash then some { entry with to_keep := keep } else q.index h)
          = (q.queue.map _).find? _
      rw [find?_map_upd]
      have hent : entry.duplicate.content_hash = dup.content_hash := by
        have hf : q.queue.find?
            (fun e => e.duplicate.content_hash = dup.content_hash) = some entry := by
          rw [← hidx]
          exact hp
        have hpe := List.find?_some hf
        simpa using hpe
      by_cases hh : h = dup.content_hash
      · rw [if_pos hh]
        have hfh : q.queue.find? (fun e => e.duplicate.content_hash = h) = some entry := by
          rw [← hidx h, hh]
          exact hp
        rw [hfh]
        show some { entry with to_keep := keep }
            = some (if entry.duplicate.content_hash = dup.content_hash
                then { entry with to_keep := keep } else entry)
        rw [if_pos hent]
      · rw [if_neg hh, hidx h]
        cases hf : q.queue.find? (fun e => e.duplicate.content_hash = h) with
        | none => rfl
        | some e0 =>
          have he0 : e0.duplicate.content_hash = h := by
            have hpe := List.find?_some hf
            simpa using hpe
          show some e0
              = some (if e0.duplicate.content_hash = dup.content_hash
                  then { e0 with to_keep := keep } else e0)
          rw [if_neg (by rw [he0]; exact hh)]
  | none =>
    have hadd : q.add dup keep =
        DeletionQueue.mk (q.queue ++ [({ duplicate := dup, to_keep := keep } : DeletionEntry)])
          (fun k => if k = dup.content_hash
                    then some ({ duplicate := dup, to_keep := keep } : DeletionEntry)
                    else q.index k) := by
      unfold DeletionQueue.add DeletionQueue.add_new
      rw [hp]
    have hfind : q.queue.find? (fun e => e.duplicate.content_hash = dup.content_hash)
        = none := by
      rw [← hidx]
      exact hp
    have hnotin : dup.content_hash ∉ q.queue.map (fun e => e.duplicate.content_hash) := by
      intro hmem
      rcases List.mem_map.mp hmem with ⟨e, he, heq⟩
      have := List.find?_eq_none.mp hfind e he
      simp [heq] at this
    rw [hadd]
    constructor
    · show ((q.queue ++ [({ duplicate := dup, to_keep := keep } : DeletionEntry)]).map
        (fun e => e.duplicate.content_hash)).Nodup
      rw [List.map_append, List.nodup_append]
      refine ⟨hnd, List.nodup_singleton _, ?_⟩
      intro a ha hb
      have hab : a = dup.content_hash := by simpa using hb
      exact hnotin (hab ▸ ha)
    · intro h
      show (if h = dup.content_hash
              then some ({ duplicate := dup, to_keep := keep } : DeletionEntry)
            else q.index h)
          = (q.queue ++ [({ duplicate := dup, to_keep := keep } : DeletionEntry)]).find?
              (fun e => e.duplicate.content_hash = h)
      rw [find?_append_or]
      by_cases hh : h = dup.content_hash
      · rw [if_pos hh]
        have hfh : q.queue.find? (fun e => e.duplicate.content_hash = h) = none := by
          rw [hh]
          exact hfind
        rw [hfh]
        simp [List.find?_cons, hh]
      · rw [if_neg hh, hidx h]
        cases hf : q.queue.find? (fun e => e.duplicate.content_hash = h) with
        | some e0 => rfl
        | none => simp [List.find?_cons, Ne.symm hh]

theorem wf_applyAdds (ops : List (Duplicate × String)) : QueueWf (applyAdds ops) := by
  suffices h : ∀ q, QueueWf q → QueueWf (ops.foldl (fun q op => q.add op.1 op.2) q) from
    h _ wf_empty
  induction ops with
  | nil => intro q hq; exact hq
  | cons op rest ih =>
    intro q hq
    exact ih _ (wf_add q op.1 op.2 hq)

theorem foldl_add_hash_subset (ops : List (Duplicate × String)) :
    ∀ q : DeletionQueue,
      ((ops.foldl (fun q op => q.add op.1 op.2) q).queue.map
          (fun e => e.duplicate.content_hash))
        ⊆ (q.queue.map (fun e => e.duplicate.content_hash))
            ++ ops.map (fun op => op.1.content_hash) := by
  induction ops with
  | nil =>
    intro q
    simp
  | cons op rest ih =>
    intro q x hx
    have hstep : ((q.add op.1 op.2).queue.map (fun e => e.duplicate.content_hash))
        ⊆ (q.queue.map (fun e => e.duplicate.content_hash)) ++ [op.1.content_hash] := by
      cases hp : q.get_by_hash op.1.content_hash with
      | some entry =>
        have hadd : (q.add op.1 op.2).queue = q.queue.map (fun e =>
            if e.duplicate.content_hash = op.1.content_hash
            then { e with to_keep := op.2 } else e) := by
          unfold DeletionQueue.add
          rw [hp]
        rw [hadd, map_hash_upd]
        intro a ha
        exact List.mem_append_left _ ha
      | none =>
        have hadd : (q.add op.1 op.2).queue
            = q.queue ++ [({ duplicate := op.1, to_keep := op.2 } : DeletionEntry)] := by
          unfold DeletionQueue.add DeletionQueue.add_new
          rw [hp]
        rw [hadd, List.map_append]
        intro a ha
        exact ha
    simp only [List.foldl_cons] at hx
    have hx' := ih (q.add op.1 op.2) hx
    rcases List.mem_append.mp hx' with h1 | h2
    · rcases List.mem_append.mp (hstep h1) with ha | hb
      · exact List.mem_append_left _ ha
      · have hxb : x = op.1.content_hash := by simpa using hb
        apply List.mem_append_right
        rw [List.map_cons]
        exact hxb ▸ List.mem_cons_self _ _
    · apply List.mem_append_right
      rw [List.map_cons]
      exact List.mem_cons_of_mem _ h2

theorem applyAdds_size_le (ops : List (Duplicate × String)) :
    (applyAdds ops).queue.length ≤ ((ops.map (fun op => op.1.content_hash)).dedup).length := by
  have hnd := (wf_applyAdds ops).1
  have hsub := foldl_add_hash_subset ops DeletionQueue.empty
  rw [show DeletionQueue.empty.queue.map (fun e => e.duplicate.content_hash) = [] from rfl,
    List.nil_append] at hsub
  rw [← List.length_map (applyAdds ops).queue (fun e => e.duplicate.content_hash)]
  rw [← List.toFinset_card_of_nodup hnd, ← List.card_toFinset]
  apply Finset.card_le_card
  intro a ha
  rw [List.mem_toFinset] at ha ⊢
  exact hsub ha

theorem add_eq_some (q : DeletionQueue) (dup : Duplicate) (keep : String)
    (entry : DeletionEntry) (hp : q.get_by_hash dup.content_hash = some entry) :
    q.add dup keep = DeletionQueue.mk
      (q.queue.map (fun e =>
        if e.duplicate.content_hash = dup.content_hash
        then { e with to_keep := keep } else e))
      (fun k => if k = dup.content_hash then some { entry with to_keep := keep }
                else q.index k) := by
  unfold DeletionQueue.add
  rw [hp]

theorem add_eq_none (q : DeletionQueue) (dup : Duplicate) (keep : String)
    (hp : q.get_by_hash dup.content_hash = none) :
    q.add dup keep = DeletionQueue.mk
      (q.queue ++ [({ duplicate := dup, to_keep := keep } : DeletionEntry)])
      (fun k => if k = dup.content_hash
                then some ({ duplicate := dup, to_keep := keep } : DeletionEntry)
                else q.index k) := by
  unfold DeletionQueue.add DeletionQueue.add_new
  rw [hp]

theorem add_present_pointwise (q : DeletionQueue) (dup : Duplicate) (keep : String)
    (entry : DeletionEntry) (hp : q.get_by_hash dup.content_hash = some entry) :
    (q.add dup keep).queue.length = q.queue.length ∧
    ∀ j (hj : j < q.queue.length) (hj2 : j < (q.add dup keep).queue.length),
      (((q.add dup keep).queue.get ⟨j, hj2⟩).duplicate = (q.queue.get ⟨j, hj⟩).duplicate) ∧
      (((q.add dup keep).queue.get ⟨j, hj2⟩).to_keep =
        if (q.queue.get ⟨j, hj⟩).duplicate.content_hash = dup.content_hash then keep
        else (q.queue.get ⟨j, hj⟩).to_keep) := by
  have hadd : (q.add dup keep).queue = q.queue.map (fun e =>
      if e.duplicate.content_hash = dup.content_hash
      then { e with to_keep := keep } else e) := by
    rw [add_eq_some q dup keep entry hp]
  constructor
  · rw [hadd]
    exact List.length_map _ _
  · intro j hj hj2
    simp only [List.get_eq_getElem, hadd, List.getElem_map]
    refine ⟨?_, ?_⟩ <;> split <;> simp_all

theorem add_absent_append (q : DeletionQueue) (dup : Duplicate) (keep : String)
    (hp : q.get_by_hash dup.content_hash = none) :
    (q.add dup keep).queue = q.queue ++ [⟨dup, keep⟩] := by
  rw [add_eq_none q dup keep hp]

theorem add_idem (q : DeletionQueue) (dup : Duplicate) (keep : String) (hq : QueueWf q) :
    (q.add dup keep).add dup keep = q.add dup keep := by
  obtain ⟨hnd, hidx⟩ := hq
  have mkEq : ∀ (a b : List DeletionEntry) (f g : String → Option DeletionEntry),
      a = b → (∀ k, f k = g k) → DeletionQueue.mk a f = DeletionQueue.mk b g := by
    intro a b f g h1 h2
    cases h1
    rw [funext h2]
  cases hp : q.get_by_hash dup.content_hash with
  | some entry =>
    have hadd := add_eq_some q dup keep entry hp
    have hp2 : (q.add dup keep).get_by_hash dup.content_hash
        = some { entry with to_keep := keep } := by
      rw [hadd]
      show (if dup.content_hash = dup.content_hash
          then some { entry with to_keep := keep } else q.index dup.content_hash)
          = some { entry with to_keep := keep }
      rw [if_pos rfl]
    have hadd2 := add_eq_some (q.add dup keep) dup keep { entry with to_keep := keep } hp2
    rw [hadd2]
    have hqueue : (q.add dup keep).queue.map (fun e =>
        if e.duplicate.content_hash = dup.content_hash
        then { e with to_keep := keep } else e) = (q.add dup keep).queue := by
      rw [hadd]
      show (q.queue.map _).map _ = q.queue.map _
      rw [List.map_map]
      apply List.map_congr_left
      intro e _
      by_cases hh : e.duplicate.content_hash = dup.content_hash
      · simp [hh]
      · simp [hh]
    have hindex : ∀ k, (if k = dup.content_hash
        then some { { entry with to_keep := keep } with to_keep := keep }
        else (q.add dup keep).index k) = (q.add dup keep).index k := by
      intro k
      by_cases hk : k = dup.content_hash
      · rw [if_pos hk, hadd]
        show some { entry with to_keep := keep }
            = (if k = dup.content_hash then some { entry with to_keep := keep }
               else q.index k)
        rw [if_pos hk]
      · rw [if_neg hk]
    cases hdq : q.add dup keep with
    | mk ql qf =>
      rw [hdq] at hqueue hindex
      exact mkEq _ _ _ _ hqueue hindex
  | none =>
    have hadd := add_eq_none q dup keep hp
    have hp2 : (q.add dup keep).get_by_hash dup.content_hash
        = some ({ duplicate := dup, to_keep := keep } : DeletionEntry) := by
      rw [hadd]
      show (if dup.content_hash = dup.content_hash
          then some ({ duplicate := dup, to_keep := keep } : DeletionEntry)
          else q.index dup.content_hash)
          = some ({ duplicate := dup, to_keep := keep } : DeletionEntry)
      rw [if_pos rfl]
    have hadd2 := add_eq_some (q.add dup keep) dup keep
      ({ duplicate := dup, to_keep := keep } : DeletionEntry) hp2
    have hnomatch : ∀ e ∈ q.queue, e.duplicate.content_hash ≠ dup.content_hash := by
      intro e he
      have hfind : q.queue.find? (fun e => e.duplicate.content_hash = dup.content_hash)
          = none := by
        rw [← hidx]
        exact hp
      have := List.find?_eq_none.mp hfind e he
      simpa using this
    rw [hadd2]
    have hqueue : (q.add dup keep).queue.map (fun e =>
        if e.duplicate.content_hash = dup.content_hash
        then { e with to_keep := keep } else e) = (q.add dup keep).queue := by
      rw [hadd]
      show (q.queue ++ [({ duplicate := dup, to_keep := keep } : DeletionEntry)]).map _
          = q.queue ++ [({ duplicate := dup, to_keep := keep } : DeletionEntry)]
      rw [List.map_append]
      have h1 : q.queue.map (fun e =>
          if e.duplicate.content_hash = dup.content_hash
          then { e with to_keep := keep } else e) = q.queue := by
        have hcongr := List.map_congr_left (l := q.queue)
          (f := fun e => if e.duplicate.content_hash = dup.content_hash
            then { e with to_keep := keep } else e)
          (g := fun e => e)
          (fun e he => by
            show (if e.duplicate.content_hash = dup.content_hash
                then { e with to_keep := keep } else e) = e
            rw [if_neg (hnomatch e he)])
        rw [hcongr]
        simp
      have h2 : [({ duplicate := dup, to_keep := keep } : DeletionEntry)].map (fun e =>
          if e.duplicate.content_hash = dup.content_hash
          then { e with to_keep := keep } else e)
          = [({ duplicate := dup, to_keep := keep } : DeletionEntry)] := by
        simp
      rw [h1, h2]
    have hindex : ∀ k, (if k = dup.content_hash
        then some { ({ duplicate := dup, to_keep := keep } : DeletionEntry) with
            to_keep := keep }
        else (q.add dup keep).index k) = (q.add dup keep).index k := by
      intro k
      by_cases hk : k = dup.content_hash
      · rw [if_pos hk, hadd]
        show some ({ duplicate := dup, to_keep := keep } : DeletionEntry)
            = (if k = dup.content_hash
               then some ({ duplicate := dup, to_keep := keep } : DeletionEntry)
               else q.index k)
        rw [if_pos hk]
      · rw [if_neg hk]
    cases hdq : q.add dup keep with
    | mk ql qf =>
      rw [hdq] at hqueue hindex
      exact mkEq _ _ _ _ hqueue hindex

/-- C3: after any sequence of `add` calls, the queue holds at most one
entry per content hash; a further `add` for a present hash keeps every
entry's position and group and rewrites only the `to_keep` of the entry
carrying that hash, while an absent hash appends a fresh entry; `add` is
idempotent under repetition; and the queue size is bounded by the number
of distinct hashes ever added. -/
theorem add_upsert_spec (ops : List (Duplicate × String)) :
    (((applyAdds ops).queue.map (fun e => e.duplicate.content_hash)).Nodup) ∧
    (∀ dup keep entry, (applyAdds ops).get_by_hash dup.content_hash = some entry →
      ((applyAdds ops).add dup keep).queue.length = (applyAdds ops).queue.length ∧
      ∀ j (hj : j < (applyAdds ops).queue.length)
        (hj2 : j < ((applyAdds ops).add dup keep).queue.length),
        ((((applyAdds ops).add dup keep).queue.get ⟨j, hj2⟩).duplicate
            = ((applyAdds ops).queue.get ⟨j, hj⟩).duplicate) ∧
        ((((applyAdds ops).add dup keep).queue.get ⟨j, hj2⟩).to_keep
            = if ((applyAdds ops).queue.get ⟨j, hj⟩).duplicate.content_hash = dup.content_hash
              then keep else ((applyAdds ops).queue.get ⟨j, hj⟩).to_keep)) ∧
    (∀ dup keep, (applyAdds ops).get_by_hash dup.content_hash = none →
      ((applyAdds ops).add dup keep).queue = (applyAdds ops).queue ++ [⟨dup, keep⟩]) ∧
    (∀ dup keep, ((applyAdds ops).add dup keep).add dup keep = (applyAdds ops).add dup keep) ∧
    (applyAdds ops).queue.length ≤ ((ops.map (fun op => op.1.content_hash)).dedup).length := by
  refine ⟨(wf_applyAdds ops).1, ?_, ?_, ?_, applyAdds_size_le ops⟩
  · intro dup keep entry hp
    exact add_present_pointwise (applyAdds ops) dup keep entry hp
  · intro dup keep hp
    exact add_absent_append (applyAdds ops) dup keep hp
  · intro dup keep
    exact add_idem (applyAdds ops) dup keep (wf_applyAdds ops)

/-- Witness for C3: re-deciding the only queued group replaces `to_keep`
without growing the queue. -/
theorem add_upsert_spec_witness :
    ((applyAdds [(⟨"h", ["a", "b"]⟩, "a")]).add ⟨"h", ["a", "b"]⟩ "b").queue.length
      = (applyAdds [(⟨"h", ["a", "b"]⟩, "a")]).queue.length :=
  ((add_upsert_spec [(⟨"h", ["a", "b"]⟩, "a")]).2.1 ⟨"h", ["a", "b"]⟩ "b"
    ⟨⟨"h", ["a", "b"]⟩, "a"⟩ (by rfl)).1

end FindClones
